import Mathlib

/-!
Shallow embedding of scripts/pipeline.py: a tabular ingest pipeline with an
identity deriver (md5 of a normalized name), a frame normalizer, a batch
assembler, an append-then-deduplicate upsert store, and a left-join
denormalization step.  Frames are modelled as lists of association-list rows;
machine integers are Nat with explicit reduction mod 2 ^ 32 where the md5
arithmetic overflows.
-/

namespace Pipeline

/-- Cell values of a loosely typed tabular frame: text, numbers (modelled as
rationals), or missing (pandas NaN and Python None are both modelled as null). -/
inductive Value where
  | str (s : String)
  | num (q : ℚ)
  | null
deriving DecidableEq, Repr

/-- A row is an association list from column labels to cell values. -/
abbrev Row := List (String × Value)

/-- Column access; a label absent from the row reads as a missing value. -/
def getCol (r : Row) (c : String) : Value :=
  match r with
  | [] => Value.null
  | (c2, v) :: rest => if c2 = c then v else getCol rest c

/-- Column assignment on one row, modelling a pandas column store: the previous
binding for the label is removed and the new one added. -/
def setCol (r : Row) (c : String) (v : Value) : Row :=
  (c, v) :: r.filter (fun p => p.1 != c)

/-! ### The identity deriver (country_id_from_name, pipeline.py lines 15-19)

The source computes hashlib.md5 of the UTF-8 bytes of the normalized name and
uses the lowercase hex digest.  md5 is embedded executably below over Nat with
arithmetic reduced mod 2 ^ 32. -/

/-- 32-bit truncating addition. -/
def add32 (a b : Nat) : Nat := (a + b) % 4294967296

/-- 32-bit complement. -/
def not32 (a : Nat) : Nat := 4294967295 ^^^ a

/-- 32-bit left rotation. -/
def rotl32 (x s : Nat) : Nat := ((x <<< s) ||| (x >>> (32 - s))) % 4294967296

/-- The 64 md5 sine-derived round constants. -/
def md5K : List Nat :=
  [0xd76aa478, 0xe8c7b756, 0x242070db, 0xc1bdceee,
   0xf57c0faf, 0x4787c62a, 0xa8304613, 0xfd469501,
   0x698098d8, 0x8b44f7af, 0xffff5bb1, 0x895cd7be,
   0x6b901122, 0xfd987193, 0xa679438e, 0x49b40821,
   0xf61e2562, 0xc040b340, 0x265e5a51, 0xe9b6c7aa,
   0xd62f105d, 0x02441453, 0xd8a1e681, 0xe7d3fbc8,
   0x21e1cde6, 0xc33707d6, 0xf4d50d87, 0x455a14ed,
   0xa9e3e905, 0xfcefa3f8, 0x676f02d9, 0x8d2a4c8a,
   0xfffa3942, 0x8771f681, 0x6d9d6122, 0xfde5380c,
   0xa4beea44, 0x4bdecfa9, 0xf6bb4b60, 0xbebfbc70,
   0x289b7ec6, 0xeaa127fa, 0xd4ef3085, 0x04881d05,
   0xd9d4d039, 0xe6db99e5, 0x1fa27cf8, 0xc4ac5665,
   0xf4292244, 0x432aff97, 0xab9423a7, 0xfc93a039,
   0x655b59c3, 0x8f0ccc92, 0xffeff47d, 0x85845dd1,
   0x6fa87e4f, 0xfe2ce6e0, 0xa3014314, 0x4e0811a1,
   0xf7537e82, 0xbd3af235, 0x2ad7d2bb, 0xeb86d391]

/-- The md5 per-round left-rotation amounts. -/
def md5S : List Nat :=
  [7, 12, 17, 22, 7, 12, 17, 22, 7, 12, 17, 22, 7, 12, 17, 22,
   5, 9, 14, 20, 5, 9, 14, 20, 5, 9, 14, 20, 5, 9, 14, 20,
   4, 11, 16, 23, 4, 11, 16, 23, 4, 11, 16, 23, 4, 11, 16, 23,
   6, 10, 15, 21, 6, 10, 15, 21, 6, 10, 15, 21, 6, 10, 15, 21]

/-- Little-endian 32-bit word g of one 64-byte chunk. -/
def md5Word (chunk : List Nat) (g : Nat) : Nat :=
  chunk.getD (4 * g) 0 + 256 * chunk.getD (4 * g + 1) 0 +
    65536 * chunk.getD (4 * g + 2) 0 + 16777216 * chunk.getD (4 * g + 3) 0

/-- One md5 round step on the state (A, B, C, D). -/
def md5Step (chunk : List Nat) (st : Nat × Nat × Nat × Nat) (i : Nat) :
    Nat × Nat × Nat × Nat :=
  let A := st.1
  let B := st.2.1
  let C := st.2.2.1
  let D := st.2.2.2
  let F :=
    if i < 16 then (B &&& C) ||| (not32 B &&& D)
    else if i < 32 then (D &&& B) ||| (not32 D &&& C)
    else if i < 48 then B ^^^ C ^^^ D
    else C ^^^ (B ||| not32 D)
  let g :=
    if i < 16 then i
    else if i < 32 then (5 * i + 1) % 16
    else if i < 48 then (3 * i + 5) % 16
    else (7 * i) % 16
  let t := add32 (add32 (add32 A F) (md5K.getD i 0)) (md5Word chunk g)
  (D, add32 B (rotl32 t (md5S.getD i 0)), B, C)

/-- Process one 64-byte chunk, adding the round result to the running state. -/
def md5Chunk (st : Nat × Nat × Nat × Nat) (chunk : List Nat) :
    Nat × Nat × Nat × Nat :=
  let f := (List.range 64).foldl (md5Step chunk) st
  (add32 st.1 f.1, add32 st.2.1 f.2.1, add32 st.2.2.1 f.2.2.1,
   add32 st.2.2.2 f.2.2.2)

/-- md5 padding: a 0x80 byte, zeros to 56 mod 64, then the bit length as a
64-bit little-endian quantity. -/
def md5Pad (msg : List Nat) : List Nat :=
  let len := msg.length
  let zeros := (120 - (len + 1) % 64) % 64
  msg ++ [128] ++ List.replicate zeros 0 ++
    (List.range 8).map (fun i => ((len * 8) >>> (8 * i)) % 256)

/-- Split a byte list into 64-byte chunks; the fuel argument (instantiated
with the list length, an upper bound on the chunk count) keeps the recursion
structural so that the definition evaluates inside the kernel. -/
def chunks64Aux : Nat → List Nat → List (List Nat)
  | 0, _ => []
  | _, [] => []
  | fuel + 1, b :: rest => (b :: rest.take 63) :: chunks64Aux fuel (rest.drop 63)

/-- Split a byte list into 64-byte chunks. -/
def chunks64 (bs : List Nat) : List (List Nat) := chunks64Aux bs.length bs

/-- The md5 state after hashing a byte message. -/
def md5Hash (msg : List Nat) : Nat × Nat × Nat × Nat :=
  (chunks64 (md5Pad msg)).foldl md5Chunk
    (0x67452301, 0xefcdab89, 0x98badcfe, 0x10325476)

/-- Lowercase hex digit. -/
def hexDigit (n : Nat) : Char :=
  match n with
  | 0 => '0' | 1 => '1' | 2 => '2' | 3 => '3' | 4 => '4' | 5 => '5'
  | 6 => '6' | 7 => '7' | 8 => '8' | 9 => '9' | 10 => 'a' | 11 => 'b'
  | 12 => 'c' | 13 => 'd' | 14 => 'e' | _ => 'f'

/-- Two lowercase hex characters of one byte. -/
def byteHex (b : Nat) : List Char := [hexDigit (b / 16), hexDigit (b % 16)]

/-- Little-endian bytes of one 32-bit word. -/
def wordLEBytes (w : Nat) : List Nat :=
  [w % 256, (w >>> 8) % 256, (w >>> 16) % 256, (w >>> 24) % 256]

/-- The 32-character lowercase hex md5 digest of a byte message. -/
def md5hex (msg : List Nat) : String :=
  let st := md5Hash msg
  ⟨(wordLEBytes st.1 ++ wordLEBytes st.2.1 ++ wordLEBytes st.2.2.1 ++
      wordLEBytes st.2.2.2).foldr (fun x acc => byteHex x ++ acc) []⟩

/-- UTF-8 bytes of one character. -/
def utf8Char (c : Char) : List Nat :=
  let n := c.toNat
  if n < 128 then [n]
  else if n < 2048 then [192 ||| (n >>> 6), 128 ||| (n &&& 63)]
  else if n < 65536 then
    [224 ||| (n >>> 12), 128 ||| ((n >>> 6) &&& 63), 128 ||| (n &&& 63)]
  else
    [240 ||| (n >>> 18), 128 ||| ((n >>> 12) &&& 63),
     128 ||| ((n >>> 6) &&& 63), 128 ||| (n &&& 63)]

/-- UTF-8 encoding of a string. -/
def utf8Encode (s : String) : List Nat :=
  s.data.foldr (fun c acc => utf8Char c ++ acc) []

/-- The whitespace characters matched by the Python regex class backslash-s
(ASCII range). -/
def isPyWs (c : Char) : Bool :=
  c == ' ' || c == '\t' || c == '\n' || c == '\r' || c == '\x0b' || c == '\x0c'

/-- Replace every maximal whitespace run by a single copy of rep (the Python
re.sub of a whitespace run); the Bool flag records whether the previous
character was whitespace. -/
def collapseWsAux (rep : Char) : Bool → List Char → List Char
  | _, [] => []
  | prevWs, c :: cs =>
    if isPyWs c then
      (if prevWs then collapseWsAux rep true cs
       else rep :: collapseWsAux rep true cs)
    else c :: collapseWsAux rep false cs

/-- Replace every maximal whitespace run by a single copy of rep. -/
def collapseWs (rep : Char) (cs : List Char) : List Char :=
  collapseWsAux rep false cs

/-- Python str.strip: drop leading and trailing whitespace. -/
def pyStrip (cs : List Char) : List Char :=
  ((cs.dropWhile isPyWs).reverse.dropWhile isPyWs).reverse

/-- Python str.lower (ASCII range). -/
def pyLower (cs : List Char) : List Char := cs.map Char.toLower

/-- The name normalization of country_id_from_name (line 18): collapse
whitespace runs to one space, strip, lower-case. -/
def normKey (s : String) : String :=
  ⟨pyLower (pyStrip (collapseWs ' ' s.data))⟩

/-- country_id_from_name (pipeline.py lines 15-19): a missing name (pd.isna)
is replaced by the empty string, then the normalized name is md5-hashed. -/
def country_id_from_name (name : Option String) : String :=
  let s := match name with | none => "" | some t => t
  md5hex (utf8Encode (normKey s))

/-- pandas Series.astype(str) on one cell: strings are unchanged; NaN / None
stringify to a non-empty literal (pandas prints NaN as the text nan and
Python None as the text None; the model uses nan, the CSV-missing case).
The numeric display is a plain rational print; it is not evaluated by any
claim. -/
def astype_str (v : Value) : String :=
  match v with
  | .str s => s
  | .num q => if q.den = 1 then toString q.num else toString q.num ++ "/" ++ toString q.den
  | .null => "nan"

/-- The identity token the pipeline actually assigns to a cell (lines 52 and
78): the cell is stringified by astype(str) before country_id_from_name is
applied, so the pd.isna branch inside that function never sees a null. -/
def pipeline_country_id (v : Value) : String :=
  country_id_from_name (some (astype_str v))

/-! ### The frame normalizer: numeric coercion (lines 49-51 and 79-81) -/

/-- The regex replace of class complement-of 0-9.- by the empty string: keep
only digits, decimal points and minus signs. -/
def strip_numeric (s : String) : String :=
  ⟨s.data.filter (fun c => c.isDigit || c == '.' || c == '-')⟩

/-- Digits to a natural number, most significant first. -/
def natOfDigits (cs : List Char) : Nat :=
  cs.foldl (fun a c => 10 * a + (c.toNat - 48)) 0

/-- Parse an unsigned decimal numeral over digits and at most one decimal
point, needing at least one digit (the grammar pd.to_numeric accepts on the
post-strip alphabet). -/
def parseUnsigned (cs : List Char) : Option ℚ :=
  let ip := cs.takeWhile Char.isDigit
  let rest := cs.dropWhile Char.isDigit
  match rest with
  | [] => if ip.isEmpty then none else some (natOfDigits ip)
  | '.' :: fp =>
    if fp.all Char.isDigit && !(ip.isEmpty && fp.isEmpty) then
      some ((natOfDigits ip : ℚ) + (natOfDigits fp : ℚ) / (10 ^ fp.length : ℚ))
    else none
  | _ => none

/-- Parse a signed decimal numeral; anything else is a parse failure. -/
def parse_decimal (s : String) : Option ℚ :=
  match s.data with
  | '-' :: rest => (parseUnsigned rest).map (fun q => -q)
  | cs => parseUnsigned cs

/-- One cell of the coercion pd.to_numeric applied after astype(str) and the
regex strip (errors=coerce): stringify, strip the non-numeric characters,
parse; a parse failure becomes a missing value, never an error. -/
def coerce_value (v : Value) : Value :=
  match parse_decimal (strip_numeric (astype_str v)) with
  | some q => Value.num q
  | none => Value.null

/-! ### Data frames and column-level operations -/

/-- A data frame: the column index plus the rows. -/
structure DF where
  cols : List String
  rows : List Row
deriving DecidableEq, Repr

/-- The column renaming of normalize_columns (lines 22-24): strip, lower-case,
then replace internal whitespace runs by a single underscore. -/
def normColName (c : String) : String :=
  ⟨collapseWs '_' (pyLower (pyStrip c.data))⟩

/-- normalize_columns (pipeline.py lines 22-24): rename every column label. -/
def normalize_columns (df : DF) : DF :=
  ⟨df.cols.map normColName,
   df.rows.map (fun r => r.map (fun p => (normColName p.1, p.2)))⟩

/-- pandas df.rename(columns={old: new}): relabel every column named old;
nothing is dropped. -/
def rename_col (old new : String) (df : DF) : DF :=
  ⟨df.cols.map (fun x => if x = old then new else x),
   df.rows.map (fun r => r.map (fun p => if p.1 = old then (new, p.2) else p))⟩

/-- pandas df[c] = scalar: set the column on every row, appending the label to
the column index when new. -/
def set_col_all (df : DF) (c : String) (v : Value) : DF :=
  ⟨if df.cols.contains c then df.cols else df.cols ++ [c],
   df.rows.map (fun r => setCol r c v)⟩

/-- The alias-unification passage (lines 43-48 and 72-77): rename the first
alias present in the column index to country, else append a null country
column.  The rename does not remove any other alias column. -/
def unify_aliases (aliases : List String) (df : DF) : DF :=
  let df1 :=
    match aliases.find? (fun c => df.cols.contains c) with
    | some c => rename_col c "country" df
    | none => df
  if df1.cols.contains "country" then df1
  else set_col_all df1 "country" Value.null

/-- Coerce one named column in place when present (one iteration of the medal
loop, lines 49-51). -/
def coerce_col (df : DF) (c : String) : DF :=
  if df.cols.contains c then
    ⟨df.cols,
     df.rows.map (fun r => r.map (fun p => if p.1 = c then (p.1, coerce_value p.2) else p))⟩
  else df

/-- The medal-column coercion loop (lines 49-51). -/
def coerce_medals (df : DF) : DF :=
  ["gold", "silver", "bronze", "total", "rank"].foldl coerce_col df

/-- Line 52 and line 78: assign the identity token column from the stringified
country column of each row. -/
def set_country_id (df : DF) : DF :=
  ⟨if df.cols.contains "country_id" then df.cols else df.cols ++ ["country_id"],
   df.rows.map (fun r =>
     setCol r "country_id" (Value.str (pipeline_country_id (getCol r "country"))))⟩

/-! ### The batch assembler (read_olympics_files, lines 27-56) -/

/-- Is there a run of four decimal digits starting at the head? -/
def fourValAt? (cs : List Char) : Option Nat :=
  match cs with
  | a :: b :: c :: d :: _ =>
    if a.isDigit && b.isDigit && c.isDigit && d.isDigit then
      some (natOfDigits [a, b, c, d])
    else none
  | _ => none

/-- Scan left to right for the first run of four digits (re.search of a
four-digit group, line 33). -/
def searchYear : List Char → Option Nat
  | [] => none
  | c :: cs =>
    match fourValAt? (c :: cs) with
    | some y => some y
    | none => searchYear cs

/-- Lines 33-34: the year is the first four-digit run of the filename, if any. -/
def extract_year (name : String) : Option Nat := searchYear name.data

/-- The year cell stamped on every row of a file (line 42). -/
def yearValue (name : String) : Value :=
  match extract_year name with
  | some y => Value.num (y : ℚ)
  | none => Value.null

/-- The per-file body of read_olympics_files (lines 40-52): normalize columns,
stamp source_file and year provenance, unify the country aliases, coerce the
medal columns, then assign the identity token. -/
def process_file (name : String) (df : DF) : DF :=
  let df := normalize_columns df
  let df := set_col_all df "source_file" (Value.str name)
  let df := set_col_all df "year" (yearValue name)
  let df := unify_aliases ["nation", "country", "team"] df
  let df := coerce_medals df
  set_country_id df

/-- Lexicographic comparison of character lists by code point, the order
Python string comparison (and hence sorted on filenames) uses: less-or-equal. -/
def charsLe : List Char → List Char → Bool
  | [], _ => true
  | _ :: _, [] => false
  | a :: as, b :: bs =>
    if a.toNat < b.toNat then true
    else if b.toNat < a.toNat then false
    else charsLe as bs

/-- Lexicographic comparison of character lists by code point: strictly less. -/
def charsLt : List Char → List Char → Bool
  | [], [] => false
  | [], _ :: _ => true
  | _ :: _, [] => false
  | a :: as, b :: bs =>
    if a.toNat < b.toNat then true
    else if b.toNat < a.toNat then false
    else charsLt as bs

/-- Python string less-or-equal (code-point lexicographic). -/
def pyStrLe (a b : String) : Bool := charsLe a.data b.data

/-- Python string strictly-less (code-point lexicographic). -/
def pyStrLt (a b : String) : Bool := charsLt a.data b.data

/-- Stable insertion of a named frame into a name-sorted list. -/
def insertFile (x : String × DF) : List (String × DF) → List (String × DF)
  | [] => [x]
  | y :: ys => if pyStrLe x.1 y.1 then x :: y :: ys else y :: insertFile x ys

/-- The sorted(...) call of line 32: sort the discovered files by name
(Python sorted is stable and compares path strings lexicographically). -/
def sortFiles : List (String × DF) → List (String × DF)
  | [] => []
  | x :: xs => insertFile x (sortFiles xs)

/-- Concatenate the per-file row lists (pd.concat, line 56). -/
def concatRows : List (List Row) → List Row
  | [] => []
  | rs :: rest => rs ++ concatRows rest

/-- read_olympics_files (lines 27-56) over the abstract file collaborator: the
discovered (filename, raw frame) pairs are processed in ascending filename
order and concatenated; zero files yield the empty table. -/
def read_olympics_files (files : List (String × DF)) : List Row :=
  concatRows ((sortFiles files).map (fun f => (process_file f.1 f.2).rows))

/-! ### The upsert store (upsert_parquet, lines 85-93) -/

/-- The composite key of a row under the given key columns. -/
def keyTuple (key_cols : List String) (r : Row) : List Value :=
  key_cols.map (getCol r)

/-- pandas drop_duplicates(subset=key_cols, keep=last): a row survives when no
later row carries the same key tuple; survivors keep their relative order. -/
def drop_duplicates (key_cols : List String) : List Row → List Row
  | [] => []
  | r :: rs =>
    if ∃ r2 ∈ rs, keyTuple key_cols r2 = keyTuple key_cols r then
      drop_duplicates key_cols rs
    else r :: drop_duplicates key_cols rs

/-- upsert_parquet (lines 85-93): when a prior persisted table exists, append
the incoming batch after it and deduplicate keeping the last occurrence per
key; when none exists the incoming batch is persisted as-is, without any
deduplication.  The parquet write side effect is elided; the returned table is
what the source both writes and returns. -/
def upsert_parquet (existing : Option (List Row)) (df : List Row)
    (key_cols : List String) : List Row :=
  match existing with
  | some prior => drop_duplicates key_cols (prior ++ df)
  | none => df

/-! ### The denormalization join (run_pipeline, line 112) -/

/-- The rows of the right table matching one join-key value, in table order. -/
def merge_matches (on_col : String) (v : Value) : List Row → List Row
  | [] => []
  | r :: rs =>
    if getCol r on_col = v then r :: merge_matches on_col v rs
    else merge_matches on_col v rs

/-- pandas merge(..., how=left, on=on_col): every left row is emitted once per
matching right row, or once with a null right side when no match exists.  An
output row is modelled as the pair of the fact-side row and the optional
matched reference-side row (None standing for the all-null reference side). -/
def merge_left : List Row → List Row → String → List (Row × Option Row)
  | [], _, _ => []
  | l :: ls, right, c =>
    (match merge_matches c (getCol l c) right with
     | [] => [(l, none)]
     | m :: ms => (m :: ms).map (fun r => (l, some r))) ++ merge_left ls right c

/-! ### Generic facts about the upsert store -/

/-- The rows of a table carrying one given key tuple, in table order. -/
def filterKey (ks : List String) (k : List Value) : List Row → List Row
  | [] => []
  | r :: rs =>
    if keyTuple ks r = k then r :: filterKey ks k rs else filterKey ks k rs

/-- The last element of a list of rows, as a zero-or-one element list. -/
def lastOne : List Row → List Row
  | [] => []
  | [r] => [r]
  | _ :: r :: rs => lastOne (r :: rs)

theorem filterKey_append (ks : List String) (k : List Value) (A B : List Row) :
    filterKey ks k (A ++ B) = filterKey ks k A ++ filterKey ks k B := by
  induction A with
  | nil => rfl
  | cons r A ih => by_cases h : keyTuple ks r = k <;> simp [filterKey, h, ih]

theorem mem_filterKey (ks : List String) (k : List Value) (x : Row)
    (rs : List Row) : x ∈ filterKey ks k rs ↔ x ∈ rs ∧ keyTuple ks x = k := by
  induction rs with
  | nil => simp [filterKey]
  | cons r rs ih =>
    by_cases h : keyTuple ks r = k
    · simp only [filterKey, if_pos h, List.mem_cons, ih]
      constructor
      · rintro (rfl | ⟨hx, hk⟩)
        · exact ⟨Or.inl rfl, h⟩
        · exact ⟨Or.inr hx, hk⟩
      · rintro ⟨rfl | hx, hk⟩
        · exact Or.inl rfl
        · exact Or.inr ⟨hx, hk⟩
    · simp only [filterKey, if_neg h, List.mem_cons, ih]
      constructor
      · rintro ⟨hx, hk⟩; exact ⟨Or.inr hx, hk⟩
      · rintro ⟨rfl | hx, hk⟩
        · exact absurd hk h
        · exact ⟨hx, hk⟩

theorem filterKey_eq_nil (ks : List String) (k : List Value) (rs : List Row)
    (h : ∀ r ∈ rs, keyTuple ks r ≠ k) : filterKey ks k rs = [] := by
  induction rs with
  | nil => rfl
  | cons r rs ih =>
    rw [filterKey, if_neg (h r (List.mem_cons_self r rs))]
    exact ih (fun r2 h2 => h r2 (List.mem_cons_of_mem r h2))

theorem lastOne_cons_of_ne_nil (x : Row) (L : List Row) (h : L ≠ []) :
    lastOne (x :: L) = lastOne L := by
  cases L with
  | nil => exact absurd rfl h
  | cons r rs => rfl

theorem lastOne_append (L M : List Row) (h : M ≠ []) :
    lastOne (L ++ M) = lastOne M := by
  induction L with
  | nil => rfl
  | cons x L ih =>
    rw [List.cons_append, lastOne_cons_of_ne_nil x (L ++ M) ?_, ih]
    intro hnil
    rcases List.append_eq_nil.mp hnil with ⟨-, hM⟩
    exact h hM

/-- Deduplication keeping the last occurrence commutes with key selection:
the surviving row for a key is the last row carrying it. -/
theorem filterKey_drop_duplicates (ks : List String) (k : List Value)
    (rows : List Row) :
    filterKey ks k (drop_duplicates ks rows) = lastOne (filterKey ks k rows) := by
  induction rows with
  | nil => rfl
  | cons r rs ih =>
    by_cases hdup : ∃ r2 ∈ rs, keyTuple ks r2 = keyTuple ks r
    · rw [show drop_duplicates ks (r :: rs) = drop_duplicates ks rs by
        rw [drop_duplicates, if_pos hdup]]
      by_cases hk : keyTuple ks r = k
      · rw [show filterKey ks k (r :: rs) = r :: filterKey ks k rs by
          rw [filterKey, if_pos hk]]
        obtain ⟨r2, hmem, hkey⟩ := hdup
        have h2 : r2 ∈ filterKey ks k rs :=
          (mem_filterKey ks k r2 rs).mpr ⟨hmem, hkey.trans hk⟩
        rw [lastOne_cons_of_ne_nil r _ (List.ne_nil_of_mem h2)]
        exact ih
      · rw [show filterKey ks k (r :: rs) = filterKey ks k rs by
          rw [filterKey, if_neg hk]]
        exact ih
    · rw [show drop_duplicates ks (r :: rs) = r :: drop_duplicates ks rs by
        rw [drop_duplicates, if_neg hdup]]
      by_cases hk : keyTuple ks r = k
      · rw [show filterKey ks k (r :: drop_duplicates ks rs) =
            r :: filterKey ks k (drop_duplicates ks rs) by
          rw [filterKey, if_pos hk]]
        rw [show filterKey ks k (r :: rs) = r :: filterKey ks k rs by
          rw [filterKey, if_pos hk]]
        have hnil : filterKey ks k rs = [] := by
          apply filterKey_eq_nil
          intro r2 h2 hk2
          exact hdup ⟨r2, h2, hk2.trans hk.symm⟩
        rw [ih, hnil]
        rfl
      · rw [show filterKey ks k (r :: drop_duplicates ks rs) =
            filterKey ks k (drop_duplicates ks rs) by
          rw [filterKey, if_neg hk]]
        rw [show filterKey ks k (r :: rs) = filterKey ks k rs by
          rw [filterKey, if_neg hk]]
        exact ih

theorem mem_of_mem_drop_duplicates (ks : List String) (x : Row)
    (rows : List Row) (h : x ∈ drop_duplicates ks rows) : x ∈ rows := by
  induction rows with
  | nil => exact absurd h (by simp [drop_duplicates])
  | cons r rs ih =>
    by_cases hdup : ∃ r2 ∈ rs, keyTuple ks r2 = keyTuple ks r
    · rw [drop_duplicates, if_pos hdup] at h
      exact List.mem_cons_of_mem r (ih h)
    · rw [drop_duplicates, if_neg hdup] at h
      rcases List.mem_cons.mp h with rfl | h2
      · exact List.mem_cons_self x rs
      · exact List.mem_cons_of_mem r (ih h2)

/-- Whenever the prior table exists, the merged table has pairwise distinct
composite keys. -/
theorem pairwise_drop_duplicates (ks : List String) (rows : List Row) :
    List.Pairwise (fun a b => keyTuple ks a ≠ keyTuple ks b)
      (drop_duplicates ks rows) := by
  induction rows with
  | nil => exact List.Pairwise.nil
  | cons r rs ih =>
    by_cases hdup : ∃ r2 ∈ rs, keyTuple ks r2 = keyTuple ks r
    · rw [drop_duplicates, if_pos hdup]; exact ih
    · rw [drop_duplicates, if_neg hdup]
      refine List.pairwise_cons.mpr ⟨?_, ih⟩
      intro x hx heq
      exact hdup ⟨x, mem_of_mem_drop_duplicates ks x rs hx, heq.symm⟩

theorem drop_duplicates_of_pairwise (ks : List String) (rows : List Row)
    (h : List.Pairwise (fun a b => keyTuple ks a ≠ keyTuple ks b) rows) :
    drop_duplicates ks rows = rows := by
  induction rows with
  | nil => rfl
  | cons r rs ih =>
    obtain ⟨hr, hrs⟩ := List.pairwise_cons.mp h
    have hdup : ¬ ∃ r2 ∈ rs, keyTuple ks r2 = keyTuple ks r := by
      rintro ⟨r2, hmem, heq⟩
      exact hr r2 hmem heq.symm
    rw [drop_duplicates, if_neg hdup, ih hrs]

/-- Removal of the rows whose key occurs in the batch B. -/
def removeKeysOf (ks : List String) (B : List Row) : List Row → List Row
  | [] => []
  | r :: rs =>
    if ∃ r2 ∈ B, keyTuple ks r2 = keyTuple ks r then removeKeysOf ks B rs
    else r :: removeKeysOf ks B rs

theorem removeKeysOf_append (ks : List String) (B X Y : List Row) :
    removeKeysOf ks B (X ++ Y) = removeKeysOf ks B X ++ removeKeysOf ks B Y := by
  induction X with
  | nil => rfl
  | cons r X ih =>
    by_cases h : ∃ r2 ∈ B, keyTuple ks r2 = keyTuple ks r
    · rw [List.cons_append, removeKeysOf, if_pos h, removeKeysOf, if_pos h, ih]
    · rw [List.cons_append, removeKeysOf, if_neg h, removeKeysOf, if_neg h, ih,
        List.cons_append]

theorem removeKeysOf_idem (ks : List String) (B X : List Row) :
    removeKeysOf ks B (removeKeysOf ks B X) = removeKeysOf ks B X := by
  induction X with
  | nil => rfl
  | cons r X ih =>
    by_cases h : ∃ r2 ∈ B, keyTuple ks r2 = keyTuple ks r
    · rw [removeKeysOf, if_pos h, ih]
    · rw [removeKeysOf, if_neg h, removeKeysOf, if_neg h, ih]

theorem removeKeysOf_eq_nil (ks : List String) (B X : List Row)
    (h : ∀ r ∈ X, ∃ r2 ∈ B, keyTuple ks r2 = keyTuple ks r) :
    removeKeysOf ks B X = [] := by
  induction X with
  | nil => rfl
  | cons r X ih =>
    rw [removeKeysOf, if_pos (h r (List.mem_cons_self r X))]
    exact ih (fun r2 h2 => h r2 (List.mem_cons_of_mem r h2))

/-- Append-then-deduplicate decomposes: prior rows whose key reappears in the
batch are removed, and the batch is deduplicated on its own. -/
theorem drop_duplicates_append (ks : List String) (A B : List Row) :
    drop_duplicates ks (A ++ B) =
      removeKeysOf ks B (drop_duplicates ks A) ++ drop_duplicates ks B := by
  induction A with
  | nil => rfl
  | cons r A ih =>
    by_cases hA : ∃ r2 ∈ A, keyTuple ks r2 = keyTuple ks r
    · have hAB : ∃ r2 ∈ A ++ B, keyTuple ks r2 = keyTuple ks r := by
        obtain ⟨r2, hm, hk⟩ := hA
        exact ⟨r2, List.mem_append_left B hm, hk⟩
      rw [List.cons_append, drop_duplicates, if_pos hAB, ih, drop_duplicates,
        if_pos hA]
    · by_cases hB : ∃ r2 ∈ B, keyTuple ks r2 = keyTuple ks r
      · have hAB : ∃ r2 ∈ A ++ B, keyTuple ks r2 = keyTuple ks r := by
          obtain ⟨r2, hm, hk⟩ := hB
          exact ⟨r2, List.mem_append_right A hm, hk⟩
        rw [List.cons_append, drop_duplicates, if_pos hAB, ih, drop_duplicates,
          if_neg hA, removeKeysOf, if_pos hB]
      · have hAB : ¬ ∃ r2 ∈ A ++ B, keyTuple ks r2 = keyTuple ks r := by
          rintro ⟨r2, hm, hk⟩
          rcases List.mem_append.mp hm with h2 | h2
          · exact hA ⟨r2, h2, hk⟩
          · exact hB ⟨r2, h2, hk⟩
        rw [List.cons_append, drop_duplicates, if_neg hAB, ih, drop_duplicates,
          if_neg hA, removeKeysOf, if_neg hB, List.cons_append]

theorem lastOne_append_pair (L : List Row) (a b : Row) :
    lastOne (L ++ [a, b]) = [b] := by
  rw [lastOne_append L [a, b] (by simp)]
  rfl

/-! ### Claim theorems -/

/-- C1.  Last-write-wins upsert: for a prior persisted table containing a row
with composite key k (holding v1), and an incoming batch whose rows with key k
are exactly one holding v2 and then one holding v3, the merged table contains
exactly one row with key k, and that row is the v3 row. -/
theorem upsert_last_write_wins (ks : List String) (k : List Value)
    (S T : List Row) (r1 r2 r3 : Row)
    (h1 : r1 ∈ S) (hk1 : keyTuple ks r1 = k)
    (hT : filterKey ks k T = [r2, r3]) :
    filterKey ks k (upsert_parquet (some S) T ks) = [r3] := by
  show filterKey ks k (drop_duplicates ks (S ++ T)) = [r3]
  rw [filterKey_drop_duplicates, filterKey_append, hT]
  exact lastOne_append_pair _ _ _

theorem upsert_last_write_wins_witness :
    filterKey ["country_id"] [Value.str "k"]
      (upsert_parquet
        (some [[("country_id", Value.str "k"), ("gold", Value.num 1)]])
        [[("country_id", Value.str "k"), ("gold", Value.num 2)],
         [("country_id", Value.str "k"), ("gold", Value.num 3)]]
        ["country_id"]) =
      [[("country_id", Value.str "k"), ("gold", Value.num 3)]] :=
  upsert_last_write_wins ["country_id"] [Value.str "k"]
    [[("country_id", Value.str "k"), ("gold", Value.num 1)]]
    [[("country_id", Value.str "k"), ("gold", Value.num 2)],
     [("country_id", Value.str "k"), ("gold", Value.num 3)]]
    [("country_id", Value.str "k"), ("gold", Value.num 1)]
    [("country_id", Value.str "k"), ("gold", Value.num 2)]
    [("country_id", Value.str "k"), ("gold", Value.num 3)]
    (by decide) (by decide) (by decide)

/-- C2.  Upsert idempotence: against a prior persisted table S, upserting the
same batch T a second time, on top of the state the first upsert persisted,
yields the same merged table as upserting it once. -/
theorem upsert_idempotent (ks : List String) (S T : List Row) :
    upsert_parquet (some (upsert_parquet (some S) T ks)) T ks =
      upsert_parquet (some S) T ks := by
  show drop_duplicates ks (drop_duplicates ks (S ++ T) ++ T) =
    drop_duplicates ks (S ++ T)
  have hself : removeKeysOf ks T (drop_duplicates ks T) = [] := by
    apply removeKeysOf_eq_nil
    intro r hr
    exact ⟨r, mem_of_mem_drop_duplicates ks r T hr, rfl⟩
  calc drop_duplicates ks (drop_duplicates ks (S ++ T) ++ T)
      = removeKeysOf ks T (drop_duplicates ks (drop_duplicates ks (S ++ T))) ++
          drop_duplicates ks T := drop_duplicates_append ks _ T
    _ = removeKeysOf ks T (drop_duplicates ks (S ++ T)) ++
          drop_duplicates ks T := by
        rw [drop_duplicates_of_pairwise ks _ (pairwise_drop_duplicates ks (S ++ T))]
    _ = removeKeysOf ks T (removeKeysOf ks T (drop_duplicates ks S) ++
          drop_duplicates ks T) ++ drop_duplicates ks T := by
        rw [drop_duplicates_append ks S T]
    _ = (removeKeysOf ks T (removeKeysOf ks T (drop_duplicates ks S)) ++
          removeKeysOf ks T (drop_duplicates ks T)) ++ drop_duplicates ks T := by
        rw [removeKeysOf_append]
    _ = removeKeysOf ks T (drop_duplicates ks S) ++ drop_duplicates ks T := by
        rw [removeKeysOf_idem, hself, List.append_nil]
    _ = drop_duplicates ks (S ++ T) := (drop_duplicates_append ks S T).symm

/-- C4 (amended).  Whenever a prior persisted table exists, the upsert result
has at most one row per composite key: its rows are pairwise distinct on the
key tuple.  (On the very first run, with no prior table, the code persists the
batch without any deduplication, so the unamended claim fails; see the
counterexample.) -/
theorem upsert_existing_key_unique (ks : List String) (E T : List Row) :
    List.Pairwise (fun a b => keyTuple ks a ≠ keyTuple ks b)
      (upsert_parquet (some E) T ks) :=
  pairwise_drop_duplicates ks (E ++ T)

/-- C4 (counterexample).  On the very first run (no prior persisted table) the
upsert persists two distinct rows that share the composite key, refuting the
claimed key-uniqueness invariant for that run. -/
theorem first_run_duplicate_keys_counterexample :
    [("country_id", Value.str "a")] ∈
      upsert_parquet none
        [[("country_id", Value.str "a")],
         [("country_id", Value.str "a"), ("gold", Value.num 1)]]
        ["country_id"] ∧
    [("country_id", Value.str "a"), ("gold", Value.num 1)] ∈
      upsert_parquet none
        [[("country_id", Value.str "a")],
         [("country_id", Value.str "a"), ("gold", Value.num 1)]]
        ["country_id"] ∧
    ([("country_id", Value.str "a")] : Row) ≠
      [("country_id", Value.str "a"), ("gold", Value.num 1)] ∧
    keyTuple ["country_id"] [("country_id", Value.str "a")] =
      keyTuple ["country_id"]
        [("country_id", Value.str "a"), ("gold", Value.num 1)] := by
  decide

/-- C7 (amended).  Upserting an empty batch (zero files found or parsed, the
read step returning the empty table) leaves a previously persisted table
unchanged provided the prior table carries pairwise distinct keys — which
holds for every table written by an upsert against an existing prior, but can
fail for a table persisted by a very first run; see the counterexample. -/
theorem empty_batch_noop_of_key_unique (ks : List String) (S : List Row)
    (h : List.Pairwise (fun a b => keyTuple ks a ≠ keyTuple ks b) S) :
    upsert_parquet (some S) (read_olympics_files []) ks = S := by
  show drop_duplicates ks (S ++ []) = S
  rw [List.append_nil]
  exact drop_duplicates_of_pairwise ks S h

theorem empty_batch_noop_witness :
    upsert_parquet
      (some [[("country_id", Value.str "a"), ("gold", Value.num 1)],
             [("country_id", Value.str "b"), ("gold", Value.num 2)]])
      (read_olympics_files []) ["country_id"] =
      [[("country_id", Value.str "a"), ("gold", Value.num 1)],
       [("country_id", Value.str "b"), ("gold", Value.num 2)]] :=
  empty_batch_noop_of_key_unique ["country_id"]
    [[("country_id", Value.str "a"), ("gold", Value.num 1)],
     [("country_id", Value.str "b"), ("gold", Value.num 2)]]
    (by decide)

/-- C7 (counterexample).  A prior table holding two rows with the same key (a
state the very first run can persist) is changed by upserting an empty batch:
the merge re-deduplicates it, so the result does not equal the prior table row
for row. -/
theorem empty_batch_counterexample :
    upsert_parquet
      (some [[("country_id", Value.str "a")],
             [("country_id", Value.str "a"), ("gold", Value.num 1)]])
      (read_olympics_files []) ["country_id"] ≠
      [[("country_id", Value.str "a")],
       [("country_id", Value.str "a"), ("gold", Value.num 1)]] := by
  decide

/-! ### Join lemmas and claims C3, C5, C6, C8 -/

theorem merge_matches_eq_nil (c : String) (v : Value) (R : List Row)
    (h : ∀ x ∈ R, getCol x c ≠ v) : merge_matches c v R = [] := by
  induction R with
  | nil => rfl
  | cons r rs ih =>
    rw [merge_matches, if_neg (h r (List.mem_cons_self r rs))]
    exact ih (fun x hx => h x (List.mem_cons_of_mem r hx))

theorem merge_matches_subsingleton (c : String) (v : Value) (R : List Row)
    (h : List.Pairwise (fun a b => getCol a c ≠ getCol b c) R) :
    merge_matches c v R = [] ∨ ∃ r, merge_matches c v R = [r] := by
  induction R with
  | nil => exact Or.inl rfl
  | cons r rs ih =>
    obtain ⟨hr, hrs⟩ := List.pairwise_cons.mp h
    by_cases hv : getCol r c = v
    · right
      refine ⟨r, ?_⟩
      rw [merge_matches, if_pos hv, merge_matches_eq_nil c v rs ?_]
      intro x hx hxv
      exact hr x hx (hv.trans hxv.symm)
    · rw [merge_matches, if_neg hv]
      exact ih hrs

/-- C3 (amended).  When the reference table carries pairwise distinct identity
tokens (guaranteed whenever it was produced by an upsert against an existing
prior, but violable by a very first run), the left join emits every fact row
exactly once, in order, so the output row count equals the fact row count.
The fact side of the output, in order, is exactly the fact table. -/
theorem merge_left_complete_of_key_unique (L R : List Row) (c : String)
    (h : List.Pairwise (fun a b => getCol a c ≠ getCol b c) R) :
    (merge_left L R c).map Prod.fst = L ∧
      (merge_left L R c).length = L.length := by
  have hmap : (merge_left L R c).map Prod.fst = L := by
    induction L with
    | nil => rfl
    | cons l ls ih =>
      rcases merge_matches_subsingleton c (getCol l c) R h with hnil | ⟨r, hone⟩
      · rw [merge_left, hnil]
        simpa using ih
      · rw [merge_left, hone]
        simpa using ih
  refine ⟨hmap, ?_⟩
  calc (merge_left L R c).length = ((merge_left L R c).map Prod.fst).length :=
        (List.length_map _ _).symm
    _ = L.length := by rw [hmap]

theorem merge_left_complete_witness :
    (merge_left
        [[("country_id", Value.str "a"), ("year", Value.num 2000)],
         [("country_id", Value.str "q"), ("year", Value.num 2000)]]
        [[("country_id", Value.str "a"), ("population", Value.num 7)]]
        "country_id").map Prod.fst =
      [[("country_id", Value.str "a"), ("year", Value.num 2000)],
       [("country_id", Value.str "q"), ("year", Value.num 2000)]] :=
  (merge_left_complete_of_key_unique
    [[("country_id", Value.str "a"), ("year", Value.num 2000)],
     [("country_id", Value.str "q"), ("year", Value.num 2000)]]
    [[("country_id", Value.str "a"), ("population", Value.num 7)]]
    "country_id" (by decide)).1

/-- C3 (counterexample).  A reachable state of the two persisted tables (both
written by first-run upserts, where no deduplication happens) in which the
reference table holds two rows with the same identity token: the left join
then emits a fact row twice, so the output row count exceeds the fact row
count, refuting the unqualified claim. -/
theorem merge_left_count_counterexample :
    (merge_left
        (upsert_parquet none
          [[("country_id", Value.str "a"), ("year", Value.num 2000)]]
          ["country_id", "year"])
        (upsert_parquet none
          [[("country_id", Value.str "a"), ("population", Value.num 1)],
           [("country_id", Value.str "a"), ("population", Value.num 2)]]
          ["country_id"])
        "country_id").length ≠
      (upsert_parquet none
        [[("country_id", Value.str "a"), ("year", Value.num 2000)]]
        ["country_id", "year"]).length := by
  decide

set_option maxRecDepth 100000 in
/-- C5 (code bug).  The identity deriver itself maps a missing name to the
token of the empty string (its pd.isna branch), but the pipeline stringifies
the column with astype(str) before applying it, so a null country cell reaches
the deriver as the text nan (or None), never as a null: the token the pipeline
assigns to a null-name row is the token of that text, which differs from the
empty-string token the claim (and the deriver itself) prescribes. -/
theorem pipeline_null_token_diverges :
    pipeline_country_id Value.null = country_id_from_name (some "nan") ∧
    country_id_from_name none = country_id_from_name (some "") ∧
    pipeline_country_id Value.null ≠ country_id_from_name none := by
  refine ⟨rfl, rfl, by decide⟩

/-- C6.  Numeric coercion tolerance: the text 1,234 kg coerces to the number
1234, the text N/A coerces to a missing value rather than an error, and the
medal-coercion pass never drops a row (it maps each column cell-wise, so the
row count of the frame is preserved for every frame). -/
theorem coercion_tolerance :
    coerce_value (Value.str "1,234 kg") = Value.num 1234 ∧
    coerce_value (Value.str "N/A") = Value.null ∧
    ∀ df : DF, (coerce_medals df).rows.length = df.rows.length := by
  refine ⟨by decide, by decide, ?_⟩
  have hcol : ∀ (cs : List String) (df : DF),
      ((cs.foldl coerce_col df).rows.length = df.rows.length) := by
    intro cs
    induction cs with
    | nil => intro df; rfl
    | cons c cs ih =>
      intro df
      rw [List.foldl_cons, ih]
      unfold coerce_col
      split
      · exact List.length_map _ _
      · rfl
  intro df
  exact hcol ["gold", "silver", "bronze", "total", "rank"] df

/-- C8 (amended).  The first alias present in the column index is renamed to
the canonical name country (the rename relabels every column bearing that
alias), and when no alias is present a null-populated country column is
appended; but other alias columns simultaneously present are NOT dropped: the
rename preserves the column count, so a frame already holding a country column
next to an earlier-priority alias ends with two country columns rather than
exactly one (see the counterexample). -/
theorem unify_aliases_spec (al : List String) (df : DF)
    (hal : "country" ∈ al) :
    "country" ∈ (unify_aliases al df).cols ∧
    (unify_aliases al df).cols.length =
      (if (al.find? (fun c => df.cols.contains c)).isSome then df.cols.length
       else df.cols.length + 1) ∧
    (∀ c, al.find? (fun c => df.cols.contains c) = some c →
      (unify_aliases al df).cols =
        df.cols.map (fun x => if x = c then "country" else x)) ∧
    (al.find? (fun c => df.cols.contains c) = none →
      (unify_aliases al df).cols = df.cols ++ ["country"] ∧
      ∀ r ∈ (unify_aliases al df).rows, getCol r "country" = Value.null) := by
  cases hfind : al.find? (fun c => df.cols.contains c) with
  | some c =>
    have hc : df.cols.contains c = true := List.find?_some hfind
    have hcmem : c ∈ df.cols := by simpa using hc
    have hcountry : "country" ∈ (rename_col c "country" df).cols := by
      unfold rename_col
      exact List.mem_map.mpr ⟨c, hcmem, by simp⟩
    have hb : (rename_col c "country" df).cols.contains "country" = true := by
      simpa using hcountry
    have hout : unify_aliases al df = rename_col c "country" df := by
      simp only [unify_aliases, hfind, hb]
      simp
    refine ⟨hout ▸ hcountry, ?_, ?_, ?_⟩
    · rw [hout]
      unfold rename_col
      simp
    · intro c2 hc2
      obtain rfl : c = c2 := by injection hc2
      rw [hout]
      rfl
    · intro hnone
      exact Option.noConfusion hnone
  | none =>
    have hncmem : "country" ∉ df.cols := by
      have := List.find?_eq_none.mp hfind "country" hal
      simpa using this
    have hout : unify_aliases al df = set_col_all df "country" Value.null := by
      simp only [unify_aliases, hfind]
      simp [hncmem]
    have hcols : (unify_aliases al df).cols = df.cols ++ ["country"] := by
      rw [hout]
      simp [set_col_all, hncmem]
    refine ⟨?_, ?_, ?_, ?_⟩
    · rw [hcols]; simp
    · rw [hcols]; simp
    · intro c2 hc2
      exact Option.noConfusion hc2
    · intro _
      refine ⟨hcols, ?_⟩
      intro r hr
      rw [hout] at hr
      simp only [set_col_all, List.mem_map] at hr
      obtain ⟨r0, -, rfl⟩ := hr
      simp [setCol, getCol]

theorem unify_aliases_witness :
    (unify_aliases ["nation", "country", "team"]
        ⟨["team"], [[("team", Value.str "France")]]⟩).cols = ["country"] := by
  have h := (unify_aliases_spec ["nation", "country", "team"]
    ⟨["team"], [[("team", Value.str "France")]]⟩ (by decide)).2.2.1 "team" (by rfl)
  simpa using h

/-- C8 (counterexample).  A frame holding both the alias nation and the
canonical column country: the code renames nation to country and drops
nothing, leaving two country columns, so the claimed outcome of exactly one
canonical column with the other alias dropped is false. -/
theorem unify_aliases_drop_counterexample :
    (unify_aliases ["nation", "country", "team"]
        ⟨["nation", "country"],
         [[("nation", Value.str "France"), ("country", Value.str "Francia")]]⟩).cols.count
      "country" ≠ 1 := by
  decide

/-! ### Column-preservation lemmas for the per-file processing chain -/

theorem getCol_setCol_same (r : Row) (c : String) (v : Value) :
    getCol (setCol r c v) c = v := by
  simp [setCol, getCol]

theorem getCol_cons (a : String) (w : Value) (r : Row) (c : String) :
    getCol ((a, w) :: r) c = if a = c then w else getCol r c := rfl

theorem getCol_filter_ne (c c2 : String) (h : c2 ≠ c) (rr : Row) :
    getCol (rr.filter (fun p => p.1 != c)) c2 = getCol rr c2 := by
  induction rr with
  | nil => rfl
  | cons p rr ih =>
    obtain ⟨a, w⟩ := p
    rw [List.filter_cons]
    by_cases hp : a = c
    · rw [if_neg (by simp [hp])]
      rw [ih, getCol_cons, if_neg (fun hh => h (hh.symm.trans hp))]
    · rw [if_pos (by simp [hp])]
      rw [getCol_cons, getCol_cons]
      by_cases ha : a = c2
      · rw [if_pos ha, if_pos ha]
      · rw [if_neg ha, if_neg ha, ih]

theorem getCol_setCol_ne (r : Row) (c c2 : String) (v : Value) (h : c2 ≠ c) :
    getCol (setCol r c v) c2 = getCol r c2 := by
  simp only [setCol, getCol]
  rw [if_neg (fun hh => h hh.symm), getCol_filter_ne c c2 h r]

theorem getCol_map_rename (r : Row) (old new c2 : String) (h2old : c2 ≠ old)
    (h2new : c2 ≠ new) :
    getCol (r.map (fun p => if p.1 = old then (new, p.2) else p)) c2 =
      getCol r c2 := by
  induction r with
  | nil => rfl
  | cons p r ih =>
    obtain ⟨a, w⟩ := p
    rw [List.map_cons]
    by_cases hp : a = old
    · rw [show (if (a, w).1 = old then (new, (a, w).2) else (a, w)) = (new, w)
        from by simp [hp]]
      rw [getCol_cons, getCol_cons, if_neg (fun hh => h2new hh.symm),
        if_neg (fun hh => h2old (hh.symm.trans hp)), ih]
    · rw [show (if (a, w).1 = old then (new, (a, w).2) else (a, w)) = (a, w)
        from by simp [hp]]
      rw [getCol_cons, getCol_cons]
      by_cases ha : a = c2
      · rw [if_pos ha, if_pos ha]
      · rw [if_neg ha, if_neg ha, ih]

theorem getCol_map_coerce (r : Row) (c c2 : String) (f : Value → Value)
    (h : c2 ≠ c) :
    getCol (r.map (fun p => if p.1 = c then (p.1, f p.2) else p)) c2 =
      getCol r c2 := by
  induction r with
  | nil => rfl
  | cons p r ih =>
    obtain ⟨a, w⟩ := p
    rw [List.map_cons]
    by_cases hp : a = c
    · rw [show (if (a, w).1 = c then ((a, w).1, f (a, w).2) else (a, w)) = (a, f w)
        from by simp [hp]]
      rw [getCol_cons, getCol_cons, if_neg (fun hh => h (hh.symm.trans hp)),
        if_neg (fun hh => h (hh.symm.trans hp)), ih]
    · rw [show (if (a, w).1 = c then ((a, w).1, f (a, w).2) else (a, w)) = (a, w)
        from by simp [hp]]
      rw [getCol_cons, getCol_cons]
      by_cases ha : a = c2
      · rw [if_pos ha, if_pos ha]
      · rw [if_neg ha, if_neg ha, ih]

theorem getCol_set_col_all (df : DF) (c : String) (v : Value) :
    ∀ r ∈ (set_col_all df c v).rows, getCol r c = v := by
  intro r hr
  simp only [set_col_all, List.mem_map] at hr
  obtain ⟨r0, -, rfl⟩ := hr
  exact getCol_setCol_same r0 c v

theorem getCol_unify_aliases (al : List String) (df : DF) (c2 : String)
    (hc2 : c2 ≠ "country") (hal : ∀ c ∈ al, c ≠ c2) :
    ∀ r ∈ (unify_aliases al df).rows, ∃ r0 ∈ df.rows,
      getCol r c2 = getCol r0 c2 := by
  intro r hr
  unfold unify_aliases at hr
  cases hfind : al.find? (fun c => df.cols.contains c) with
  | some c =>
    have hcne : c ≠ c2 := hal c (List.mem_of_find?_eq_some hfind)
    simp only [hfind] at hr
    split at hr
    · simp only [rename_col, List.mem_map] at hr
      obtain ⟨r0, hr0, rfl⟩ := hr
      exact ⟨r0, hr0, getCol_map_rename r0 c "country" c2 hcne.symm hc2⟩
    · simp only [set_col_all, rename_col, List.mem_map] at hr
      obtain ⟨r1, ⟨r0, hr0, rfl⟩, rfl⟩ := hr
      refine ⟨r0, hr0, ?_⟩
      rw [getCol_setCol_ne _ _ _ _ hc2]
      exact getCol_map_rename r0 c "country" c2 hcne.symm hc2
  | none =>
    simp only [hfind] at hr
    split at hr
    · exact ⟨r, hr, rfl⟩
    · simp only [set_col_all, List.mem_map] at hr
      obtain ⟨r0, hr0, rfl⟩ := hr
      exact ⟨r0, hr0, getCol_setCol_ne _ _ _ _ hc2⟩

theorem getCol_coerce_col (df : DF) (c c2 : String) (h : c2 ≠ c) :
    ∀ r ∈ (coerce_col df c).rows, ∃ r0 ∈ df.rows,
      getCol r c2 = getCol r0 c2 := by
  intro r hr
  unfold coerce_col at hr
  split at hr
  · simp only [List.mem_map] at hr
    obtain ⟨r0, hr0, rfl⟩ := hr
    exact ⟨r0, hr0, getCol_map_coerce r0 c c2 coerce_value h⟩
  · exact ⟨r, hr, rfl⟩

theorem getCol_foldl_coerce (cs : List String) (c2 : String)
    (h : ∀ c ∈ cs, c2 ≠ c) :
    ∀ df : DF, ∀ r ∈ (cs.foldl coerce_col df).rows, ∃ r0 ∈ df.rows,
      getCol r c2 = getCol r0 c2 := by
  induction cs with
  | nil => exact fun df r hr => ⟨r, hr, rfl⟩
  | cons c cs ih =>
    intro df r hr
    rw [List.foldl_cons] at hr
    obtain ⟨r1, hr1, he⟩ :=
      ih (fun c3 hm => h c3 (List.mem_cons_of_mem c hm)) (coerce_col df c) r hr
    obtain ⟨r0, hr0, he0⟩ :=
      getCol_coerce_col df c c2 (h c (List.mem_cons_self c cs)) r1 hr1
    exact ⟨r0, hr0, he.trans he0⟩

theorem getCol_coerce_medals (df : DF) (c2 : String)
    (h : ∀ c ∈ ["gold", "silver", "bronze", "total", "rank"], c2 ≠ c) :
    ∀ r ∈ (coerce_medals df).rows, ∃ r0 ∈ df.rows,
      getCol r c2 = getCol r0 c2 :=
  getCol_foldl_coerce ["gold", "silver", "bronze", "total", "rank"] c2 h df

theorem getCol_set_country_id (df : DF) (c2 : String) (h : c2 ≠ "country_id") :
    ∀ r ∈ (set_country_id df).rows, ∃ r0 ∈ df.rows,
      getCol r c2 = getCol r0 c2 := by
  intro r hr
  simp only [set_country_id, List.mem_map] at hr
  obtain ⟨r0, hr0, rfl⟩ := hr
  exact ⟨r0, hr0, getCol_setCol_ne _ _ _ _ h⟩

/-! ### First-four-digit-run search lemmas -/

theorem searchYear_none_all (cs : List Char) (h : searchYear cs = none) :
    ∀ i, fourValAt? (cs.drop i) = none := by
  induction cs with
  | nil => intro i; rw [List.drop_nil]; rfl
  | cons c cs ih =>
    intro i
    cases h0 : fourValAt? (c :: cs) with
    | some y => rw [searchYear, h0] at h; cases h
    | none =>
      have h2 : searchYear cs = none := by rwa [searchYear, h0] at h
      cases i with
      | zero => simpa using h0
      | succ i2 => simpa [List.drop_succ_cons] using ih h2 i2

theorem searchYear_first (cs : List Char) :
    searchYear cs = none ∨
      ∃ j y, (∀ j2, j2 < j → fourValAt? (cs.drop j2) = none) ∧
        fourValAt? (cs.drop j) = some y ∧ searchYear cs = some y := by
  induction cs with
  | nil => exact Or.inl rfl
  | cons c cs ih =>
    cases h0 : fourValAt? (c :: cs) with
    | some y =>
      right
      exact ⟨0, y, fun j2 hj2 => absurd hj2 (Nat.not_lt_zero j2),
        by simpa using h0, by rw [searchYear, h0]⟩
    | none =>
      rcases ih with hnone | ⟨j, y, hlt, hj, hs⟩
      · left; rw [searchYear, h0, hnone]
      · right
        refine ⟨j + 1, y, ?_, by simpa [List.drop_succ_cons] using hj,
          by rw [searchYear, h0, hs]⟩
        intro j2 hj2
        cases j2 with
        | zero => simpa using h0
        | succ j3 =>
          simpa [List.drop_succ_cons] using hlt j3 (Nat.lt_of_succ_lt_succ hj2)

/-- C9.  Period provenance: every row produced from one source file carries
the year cell determined by the filename (an integer when the filename holds a
run of four digits, null otherwise); and the year extractor returns the first
four-digit run when one exists at any position (the leftmost match of the
search), and none when no position starts such a run. -/
theorem year_stamp_spec (name : String) (df : DF) :
    (∀ r ∈ (process_file name df).rows, getCol r "year" = yearValue name) ∧
    (∀ i y0, fourValAt? (name.data.drop i) = some y0 →
      ∃ j y, (∀ j2, j2 < j → fourValAt? (name.data.drop j2) = none) ∧
        fourValAt? (name.data.drop j) = some y ∧ extract_year name = some y) ∧
    ((∀ i, fourValAt? (name.data.drop i) = none) → extract_year name = none) := by
  refine ⟨?_, ?_, ?_⟩
  · intro r hr
    simp only [process_file] at hr
    obtain ⟨r1, hr1, he1⟩ := getCol_set_country_id _ "year" (by decide) r hr
    obtain ⟨r2, hr2, he2⟩ := getCol_coerce_medals _ "year" (by decide) r1 hr1
    obtain ⟨r3, hr3, he3⟩ :=
      getCol_unify_aliases ["nation", "country", "team"] _ "year" (by decide)
        (by decide) r2 hr2
    have h4 := getCol_set_col_all _ "year" (yearValue name) r3 hr3
    rw [he1, he2, he3, h4]
  · intro i y0 hi
    rcases searchYear_first name.data with hnone | ⟨j, y, hlt, hj, hs⟩
    · exact absurd (searchYear_none_all name.data hnone i) (by simp [hi])
    · exact ⟨j, y, hlt, hj, hs⟩
  · intro hall
    rcases searchYear_first name.data with hnone | ⟨j, y, hlt, hj, hs⟩
    · exact hnone
    · exact absurd (hall j) (by simp [hj])

set_option maxRecDepth 100000 in
theorem year_stamp_witness :
    getCol
        ((process_file "results_2000.csv"
            ⟨["Team"], [[("Team", Value.str "France")]]⟩).rows.headD [])
        "year" = Value.num 2000 ∧
      extract_year "results_2000.csv" = some 2000 := by
  constructor
  · have h := (year_stamp_spec "results_2000.csv"
      ⟨["Team"], [[("Team", Value.str "France")]]⟩).1
    have hm : ((process_file "results_2000.csv"
        ⟨["Team"], [[("Team", Value.str "France")]]⟩).rows.headD []) ∈
        (process_file "results_2000.csv"
          ⟨["Team"], [[("Team", Value.str "France")]]⟩).rows := by
      decide
    have := h _ hm
    rw [this]
    rfl
  · rfl

/-! ### Filename ordering of the batch assembler -/

theorem charsLe_trans : ∀ (a b c : List Char), charsLe a b = true →
    charsLe b c = true → charsLe a c = true
  | [], _, _, _, _ => rfl
  | x :: xs, [], _, hab, _ => by simp [charsLe] at hab
  | x :: xs, y :: ys, [], _, hbc => by simp [charsLe] at hbc
  | x :: xs, y :: ys, z :: zs, hab, hbc => by
    simp only [charsLe] at hab hbc ⊢
    by_cases hxy : x.toNat < y.toNat
    · by_cases hyz : y.toNat < z.toNat
      · rw [if_pos (by omega)]
      · by_cases hzy : z.toNat < y.toNat
        · rw [if_neg hyz, if_pos hzy] at hbc
          cases hbc
        · rw [if_pos (by omega)]
    · by_cases hyx : y.toNat < x.toNat
      · rw [if_neg hxy, if_pos hyx] at hab
        cases hab
      · by_cases hyz : y.toNat < z.toNat
        · rw [if_pos (by omega)]
        · by_cases hzy : z.toNat < y.toNat
          · rw [if_neg hyz, if_pos hzy] at hbc
            cases hbc
          · rw [if_neg (by omega), if_neg (by omega)]
            rw [if_neg hxy, if_neg hyx] at hab
            rw [if_neg hyz, if_neg hzy] at hbc
            exact charsLe_trans xs ys zs hab hbc

theorem charsLe_of_not : ∀ (a b : List Char), ¬ charsLe a b = true →
    charsLe b a = true
  | [], _, h => absurd rfl h
  | _ :: _, [], _ => rfl
  | x :: xs, y :: ys, h => by
    simp only [charsLe] at h ⊢
    by_cases hxy : x.toNat < y.toNat
    · rw [if_pos hxy] at h
      exact absurd rfl h
    · by_cases hyx : y.toNat < x.toNat
      · rw [if_pos hyx]
      · rw [if_neg hyx, if_neg hxy]
        rw [if_neg hxy, if_neg hyx] at h
        exact charsLe_of_not xs ys h

theorem charsLt_not_le : ∀ (a b : List Char), charsLt a b = true →
    charsLe b a = true → False
  | [], [], h, _ => by simp [charsLt] at h
  | [], _ :: _, _, h2 => by simp [charsLe] at h2
  | _ :: _, [], h, _ => by simp [charsLt] at h
  | x :: xs, y :: ys, h, h2 => by
    simp only [charsLt] at h
    simp only [charsLe] at h2
    by_cases hxy : x.toNat < y.toNat
    · rw [if_neg (by omega), if_pos hxy] at h2
      cases h2
    · by_cases hyx : y.toNat < x.toNat
      · rw [if_neg hxy, if_pos hyx] at h
        cases h
      · rw [if_neg hxy, if_neg hyx] at h
        rw [if_neg hyx, if_neg hxy] at h2
        exact charsLt_not_le xs ys h h2

theorem charsLe_refl : ∀ a : List Char, charsLe a a = true
  | [] => rfl
  | x :: xs => by
    simp only [charsLe]
    rw [if_neg (by omega), if_neg (by omega)]
    exact charsLe_refl xs

theorem pyStrLt_ne (a b : String) (h : pyStrLt a b = true) : a ≠ b := by
  intro he
  subst he
  exact charsLt_not_le a.data a.data h (charsLe_refl a.data)

theorem insertFile_perm (x : String × DF) (l : List (String × DF)) :
    List.Perm (insertFile x l) (x :: l) := by
  induction l with
  | nil => exact List.Perm.refl _
  | cons y ys ih =>
    show List.Perm (if pyStrLe x.1 y.1 then x :: y :: ys else y :: insertFile x ys)
      (x :: y :: ys)
    by_cases h : pyStrLe x.1 y.1 = true
    · rw [if_pos h]
    · rw [if_neg h]
      exact (ih.cons y).trans (List.Perm.swap x y ys)

theorem sortFiles_perm (l : List (String × DF)) : List.Perm (sortFiles l) l := by
  induction l with
  | nil => exact List.Perm.refl _
  | cons x xs ih => exact (insertFile_perm x (sortFiles xs)).trans (ih.cons x)

theorem insertFile_pairwise (x : String × DF) (l : List (String × DF))
    (h : List.Pairwise (fun a b => pyStrLe a.1 b.1 = true) l) :
    List.Pairwise (fun a b => pyStrLe a.1 b.1 = true) (insertFile x l) := by
  induction l with
  | nil => exact List.pairwise_singleton _ _
  | cons y ys ih =>
    obtain ⟨hy, hys⟩ := List.pairwise_cons.mp h
    show List.Pairwise _ (if pyStrLe x.1 y.1 then x :: y :: ys else y :: insertFile x ys)
    by_cases hxy : pyStrLe x.1 y.1 = true
    · rw [if_pos hxy]
      refine List.pairwise_cons.mpr ⟨?_, h⟩
      intro z hz
      rcases List.mem_cons.mp hz with rfl | hz2
      · exact hxy
      · exact charsLe_trans _ _ _ hxy (hy z hz2)
    · rw [if_neg hxy]
      refine List.pairwise_cons.mpr ⟨?_, ih hys⟩
      intro z hz
      rcases List.mem_cons.mp ((insertFile_perm x ys).mem_iff.mp hz) with rfl | hz2
      · exact charsLe_of_not _ _ hxy
      · exact hy z hz2

theorem sortFiles_pairwise (l : List (String × DF)) :
    List.Pairwise (fun a b => pyStrLe a.1 b.1 = true) (sortFiles l) := by
  induction l with
  | nil => exact List.Pairwise.nil
  | cons x xs ih => exact insertFile_pairwise x (sortFiles xs) ih

theorem filterKey_concatRows_nil (ks : List String) (k : List Value)
    (L : List (String × DF))
    (h : ∀ g ∈ L, filterKey ks k (process_file g.1 g.2).rows = []) :
    filterKey ks k
      (concatRows (L.map (fun f => (process_file f.1 f.2).rows))) = [] := by
  induction L with
  | nil => rfl
  | cons g L ih =>
    rw [List.map_cons]
    show filterKey ks k ((process_file g.1 g.2).rows ++
      concatRows (L.map (fun f => (process_file f.1 f.2).rows))) = []
    rw [filterKey_append, h g (List.mem_cons_self g L),
      ih (fun g2 h2 => h g2 (List.mem_cons_of_mem g h2))]
    rfl

theorem filterKey_concatRows_single (ks : List String) (k : List Value)
    (f2 : String × DF) (r2 : Row)
    (hr2 : filterKey ks k (process_file f2.1 f2.2).rows = [r2]) :
    ∀ L : List (String × DF), (L.map Prod.fst).Nodup → f2 ∈ L →
      (∀ g ∈ L, g.1 ≠ f2.1 → filterKey ks k (process_file g.1 g.2).rows = []) →
      filterKey ks k
        (concatRows (L.map (fun f => (process_file f.1 f.2).rows))) = [r2] := by
  intro L
  induction L with
  | nil => intro _ h2; cases h2
  | cons g L ih =>
    intro hnd hmem hother
    rw [List.map_cons] at hnd
    obtain ⟨hnotin, hndtail⟩ := List.nodup_cons.mp hnd
    rw [List.map_cons]
    show filterKey ks k ((process_file g.1 g.2).rows ++
      concatRows (L.map (fun f => (process_file f.1 f.2).rows))) = [r2]
    by_cases hg : g.1 = f2.1
    · have hgf : g = f2 := by
        rcases List.mem_cons.mp hmem with rfl | hmem2
        · rfl
        · exfalso
          have hmf : f2.1 ∈ L.map Prod.fst := List.mem_map_of_mem Prod.fst hmem2
          rw [← hg] at hmf
          exact hnotin hmf
      subst hgf
      have hnil : ∀ g2 ∈ L, filterKey ks k (process_file g2.1 g2.2).rows = [] := by
        intro g2 hg2
        refine hother g2 (List.mem_cons_of_mem _ hg2) ?_
        intro he
        exact hnotin (he ▸ List.mem_map_of_mem Prod.fst hg2)
      rw [filterKey_append, hr2, filterKey_concatRows_nil ks k L hnil]
      rfl
    · have hf2 : f2 ∈ L := by
        rcases List.mem_cons.mp hmem with rfl | h2
        · exact absurd rfl hg
        · exact h2
      rw [filterKey_append, hother g (List.mem_cons_self g L) hg,
        ih hndtail hf2
          (fun g2 hg2 hne => hother g2 (List.mem_cons_of_mem g hg2) hne)]
      rfl

theorem filterKey_concatRows_two (ks : List String) (k : List Value)
    (f1 f2 : String × DF) (r1 r2 : Row)
    (hr1 : filterKey ks k (process_file f1.1 f1.2).rows = [r1])
    (hr2 : filterKey ks k (process_file f2.1 f2.2).rows = [r2])
    (hlt : pyStrLt f1.1 f2.1 = true) :
    ∀ L : List (String × DF), (L.map Prod.fst).Nodup →
      List.Pairwise (fun a b => pyStrLe a.1 b.1 = true) L → f1 ∈ L → f2 ∈ L →
      (∀ g ∈ L, g.1 ≠ f1.1 → g.1 ≠ f2.1 →
        filterKey ks k (process_file g.1 g.2).rows = []) →
      filterKey ks k
        (concatRows (L.map (fun f => (process_file f.1 f.2).rows))) = [r1, r2] := by
  intro L
  induction L with
  | nil => intro _ _ h1; cases h1
  | cons g L ih =>
    intro hnd hpw h1 h2 hother
    rw [List.map_cons] at hnd
    obtain ⟨hnotin, hndtail⟩ := List.nodup_cons.mp hnd
    obtain ⟨hg_le, hpwtail⟩ := List.pairwise_cons.mp hpw
    rw [List.map_cons]
    show filterKey ks k ((process_file g.1 g.2).rows ++
      concatRows (L.map (fun f => (process_file f.1 f.2).rows))) = [r1, r2]
    by_cases hgf1 : g.1 = f1.1
    · have hgf : g = f1 := by
        rcases List.mem_cons.mp h1 with rfl | hmem2
        · rfl
        · exfalso
          have hmf : f1.1 ∈ L.map Prod.fst := List.mem_map_of_mem Prod.fst hmem2
          rw [← hgf1] at hmf
          exact hnotin hmf
      subst hgf
      have hf2 : f2 ∈ L := by
        rcases List.mem_cons.mp h2 with rfl | h2b
        · exact absurd rfl (pyStrLt_ne _ _ hlt)
        · exact h2b
      have hoth2 : ∀ g2 ∈ L, g2.1 ≠ f2.1 →
          filterKey ks k (process_file g2.1 g2.2).rows = [] := by
        intro g2 hg2 hne
        refine hother g2 (List.mem_cons_of_mem _ hg2) ?_ hne
        intro he
        exact hnotin (he ▸ List.mem_map_of_mem Prod.fst hg2)
      rw [filterKey_append, hr1,
        filterKey_concatRows_single ks k f2 r2 hr2 L hndtail hf2 hoth2]
      rfl
    · by_cases hgf2 : g.1 = f2.1
      · exfalso
        have hf1 : f1 ∈ L := by
          rcases List.mem_cons.mp h1 with rfl | h1b
          · exact absurd rfl hgf1
          · exact h1b
        have hle : pyStrLe g.1 f1.1 = true := hg_le f1 hf1
        rw [hgf2] at hle
        exact charsLt_not_le _ _ hlt hle
      · have hf1 : f1 ∈ L := by
          rcases List.mem_cons.mp h1 with rfl | h1b
          · exact absurd rfl hgf1
          · exact h1b
        have hf2 : f2 ∈ L := by
          rcases List.mem_cons.mp h2 with rfl | h2b
          · exact absurd rfl hgf2
          · exact h2b
        rw [filterKey_append, hother g (List.mem_cons_self g L) hgf1 hgf2,
          ih hndtail hpwtail hf1 hf2
            (fun g2 hg2 hn1 hn2 =>
              hother g2 (List.mem_cons_of_mem g hg2) hn1 hn2)]
        rfl

/-- C10.  Deterministic within-batch tie-break by filename order: the batch
assembler sorts the discovered files by filename (code-point lexicographic,
the Python string order) before concatenation, so when two files of one run
contribute, respectively, the only two rows carrying one composite key (one
row each) and the prior persisted table exists, the row surviving the upsert
is the one from the lexicographically later filename. -/
theorem filename_order_tie_break (ks : List String) (k : List Value)
    (files : List (String × DF)) (E : List Row)
    (hnd : (files.map Prod.fst).Nodup)
    (f1 f2 : String × DF) (h1 : f1 ∈ files) (h2 : f2 ∈ files)
    (hlt : pyStrLt f1.1 f2.1 = true) (r1 r2 : Row)
    (hr1 : filterKey ks k (process_file f1.1 f1.2).rows = [r1])
    (hr2 : filterKey ks k (process_file f2.1 f2.2).rows = [r2])
    (hother : ∀ g ∈ files, g.1 ≠ f1.1 → g.1 ≠ f2.1 →
      filterKey ks k (process_file g.1 g.2).rows = []) :
    filterKey ks k
      (upsert_parquet (some E) (read_olympics_files files) ks) = [r2] := by
  have hperm := sortFiles_perm files
  have hbatch : filterKey ks k (read_olympics_files files) = [r1, r2] := by
    show filterKey ks k (concatRows
      ((sortFiles files).map (fun f => (process_file f.1 f.2).rows))) = [r1, r2]
    refine filterKey_concatRows_two ks k f1 f2 r1 r2 hr1 hr2 hlt
      (sortFiles files) ?_ (sortFiles_pairwise files) (hperm.mem_iff.mpr h1)
      (hperm.mem_iff.mpr h2) ?_
    · exact (List.Perm.nodup_iff (hperm.map Prod.fst)).mpr hnd
    · intro g hg hne1 hne2
      exact hother g (hperm.mem_iff.mp hg) hne1 hne2
  show filterKey ks k (drop_duplicates ks (E ++ read_olympics_files files)) = [r2]
  rw [filterKey_drop_duplicates, filterKey_append, hbatch]
  exact lastOne_append_pair _ _ _

set_option maxRecDepth 1000000 in
set_option maxHeartbeats 2000000 in
theorem filename_order_tie_break_witness :
    filterKey ["country_id", "year"]
      [Value.str "9dd4e461268c8034f5c8564e155c67a6", Value.num 2000]
      (upsert_parquet
        (some [[("country_id", Value.str "prior"), ("year", Value.null)]])
        (read_olympics_files
          [("b_2000.csv", ⟨["Team", "Gold"],
            [[("Team", Value.str "x"), ("Gold", Value.str "1")]]⟩),
           ("a_2000.csv", ⟨["Team"], [[("Team", Value.str "x")]]⟩)])
        ["country_id", "year"]) =
      [[("country_id", Value.str "9dd4e461268c8034f5c8564e155c67a6"),
        ("year", Value.num 2000),
        ("source_file", Value.str "b_2000.csv"),
        ("country", Value.str "x"),
        ("gold", Value.num 1)]] := by
  refine filename_order_tie_break ["country_id", "year"]
    [Value.str "9dd4e461268c8034f5c8564e155c67a6", Value.num 2000]
    [("b_2000.csv", ⟨["Team", "Gold"],
      [[("Team", Value.str "x"), ("Gold", Value.str "1")]]⟩),
     ("a_2000.csv", ⟨["Team"], [[("Team", Value.str "x")]]⟩)]
    [[("country_id", Value.str "prior"), ("year", Value.null)]]
    (by decide)
    ("a_2000.csv", ⟨["Team"], [[("Team", Value.str "x")]]⟩)
    ("b_2000.csv", ⟨["Team", "Gold"],
      [[("Team", Value.str "x"), ("Gold", Value.str "1")]]⟩)
    (by decide) (by decide) (by decide)
    [("country_id", Value.str "9dd4e461268c8034f5c8564e155c67a6"),
     ("year", Value.num 2000),
     ("source_file", Value.str "a_2000.csv"),
     ("country", Value.str "x")]
    [("country_id", Value.str "9dd4e461268c8034f5c8564e155c67a6"),
     ("year", Value.num 2000),
     ("source_file", Value.str "b_2000.csv"),
     ("country", Value.str "x"),
     ("gold", Value.num 1)]
    (by decide) (by decide) (by decide)

end Pipeline
